import Mathlib

/-!
# Ambiq flash controller driver (`drivers/flash/flash_ambiq.c`)

A shallow embedding of the driver's operations together with theorems about
them.

Conventions of the embedding.

* `off_t` is a signed 32-bit integer and `size_t` an unsigned 32-bit integer
  (Cortex-M target).  An `off_t` argument is an `Int`, a `size_t` argument a
  `Nat`; the mixed sum `offset + len` is carried out by C in the unsigned
  32-bit type, which is rendered by an explicit `% 4294967296` (2^32).
* The address space is a function from addresses to byte values.  The flash
  region occupies the addresses `SOC_NV_FLASH_ADDR + i`, `i < SOC_NV_FLASH_SIZE`.
* The devicetree constants and the vendor key are fields of `Config`; the
  vendor program and fill routines are fields of `Hal`.
* Every effect of a call on its environment is appended to a trace, each entry
  recording the semaphore count and the interrupt mask in force when the effect
  is issued.
* `k_sem_take` with `K_FOREVER` waits while the semaphore is unavailable.  In
  a single thread of control nobody can give the semaphore meanwhile, so the
  call produces no result: the mutating operations return an `Option`.
-/

namespace FlashAmbiq

/-! ## Constants that come from outside the driver file -/

/-- Modelled from the spec: the devicetree macros `SOC_NV_FLASH_ADDR`,
`SOC_NV_FLASH_SIZE`, `FLASH_WRITE_BLK_SZ`, `FLASH_ERASE_BLK_SZ` (the spec's
Region Descriptor: base address, total size, write block size, erase block
size) and the vendor constant `AM_HAL_MRAM_PROGRAM_KEY` (the spec's unlock
key) are defined outside the driver file; they are taken as parameters. -/
structure Config where
  SOC_NV_FLASH_ADDR : Nat
  SOC_NV_FLASH_SIZE : Nat
  FLASH_WRITE_BLK_SZ : Nat
  FLASH_ERASE_BLK_SZ : Nat
  AM_HAL_MRAM_PROGRAM_KEY : Nat

/-- Modelled from the spec: the errno constant `EINVAL` comes from the C
library headers; the spec calls the corresponding result `InvalidRange`.  Its
value in Zephyr is 22. -/
def EINVAL : Int := 22

/-! ## Device state -/

/-- The fields of `struct k_sem` the driver depends on. -/
structure k_sem where
  count : Nat
  limit : Nat
deriving DecidableEq, Repr

/-- The driver data, `struct flash_ambiq_data`. -/
structure flash_ambiq_data where
  mutex : k_sem
deriving DecidableEq, Repr

/-- The parameters structure, `struct flash_parameters`. -/
structure flash_parameters where
  write_block_size : Nat
  erase_value : Nat
deriving DecidableEq, Repr

/-- One layout entry, `struct flash_pages_layout`. -/
structure flash_pages_layout where
  pages_count : Nat
  pages_size : Nat
deriving DecidableEq, Repr

/-- Effects of the driver on its environment. -/
inductive Event where
  | sem_take
  | sem_give
  | interrupt_master_disable (prior : Nat)
  | interrupt_master_set (level : Nat)
  | mram_main_program (key : Nat) (src : List Nat) (dst : Nat) (words : Nat)
  | mram_main_fill (key : Nat) (value : Nat) (dst : Nat) (words : Nat)
  | memcpy (src : Nat) (len : Nat)
deriving DecidableEq, Repr

/-- A trace entry: an effect, with the semaphore count and the interrupt mask
in force when the effect is issued. -/
structure Entry where
  ev : Event
  sem_count : Nat
  primask : Nat
deriving DecidableEq, Repr

/-- The machine the driver runs on: the byte-addressed address space, the
interrupt mask register (0 = interrupts enabled), the driver data and the
trace of effects so far. -/
structure Machine where
  mem : Nat → Nat
  primask : Nat
  data : flash_ambiq_data
  trace : List Entry

/-- The vendor routines that program and fill the memory array.  Each maps its
arguments and the address space to a status code and a new address space. -/
structure Hal where
  main_program : Nat → List Nat → Nat → Nat → (Nat → Nat) → Int × (Nat → Nat)
  main_fill : Nat → Nat → Nat → Nat → (Nat → Nat) → Int × (Nat → Nat)

/-- Append an effect to the trace, with the current semaphore count and
interrupt mask. -/
def record (e : Event) (m : Machine) : Machine :=
  { m with trace := m.trace ++ [⟨e, m.data.mutex.count, m.primask⟩] }

/-! ## Collaborators: kernel semaphore, interrupt control, vendor routines -/

/-- Modelled from the spec: `k_sem_init` is kernel code outside the driver
file.  The spec: the serializer starts in the unlocked state with capacity for
exactly one holder; the driver calls it with initial count 1 and limit 1. -/
def k_sem_init (initial_count limit : Nat) : k_sem :=
  ⟨initial_count, limit⟩

/-- Modelled from the spec: `k_sem_take` with `K_FOREVER` is kernel code
outside the driver file.  The spec: acquire the serializer, blocking
indefinitely until available.  An available semaphore is decremented; an
unavailable one yields no result. -/
def k_sem_take (m : Machine) : Option Machine :=
  if 0 < m.data.mutex.count then
    let m1 := record Event.sem_take m
    some { m1 with data := { mutex := { m1.data.mutex with count := m1.data.mutex.count - 1 } } }
  else none

/-- Modelled from the spec: `k_sem_give` is kernel code outside the driver
file.  The spec: release the serializer.  The count is incremented unless it
is already at its limit. -/
def k_sem_give (m : Machine) : Machine :=
  let m1 := record Event.sem_give m
  if m1.data.mutex.count < m1.data.mutex.limit then
    { m1 with data := { mutex := { m1.data.mutex with count := m1.data.mutex.count + 1 } } }
  else m1

/-- Modelled from the spec: `am_hal_interrupt_master_disable` is vendor code
outside the driver file.  The spec: `disable_interrupts() -> prior_state`; it
masks interrupts and returns the interrupt state found on entry. -/
def am_hal_interrupt_master_disable (m : Machine) : Nat × Machine :=
  let m1 := record (Event.interrupt_master_disable m.primask) m
  (m.primask, { m1 with primask := 1 })

/-- Modelled from the spec: `am_hal_interrupt_master_set` is vendor code
outside the driver file.  The spec: `restore_interrupts(prior_state) -> void`;
it reinstates the interrupt state it is passed. -/
def am_hal_interrupt_master_set (level : Nat) (m : Machine) : Machine :=
  let m1 := record (Event.interrupt_master_set level) m
  { m1 with primask := level }

/-- Call of the vendor program routine: the call is recorded and the routine
of `hal` acts on the address space. -/
def am_hal_mram_main_program (hal : Hal) (key : Nat) (src : List Nat) (dst words : Nat)
    (m : Machine) : Int × Machine :=
  let m1 := record (Event.mram_main_program key src dst words) m
  let r := hal.main_program key src dst words m1.mem
  (r.1, { m1 with mem := r.2 })

/-- Call of the vendor fill routine: the call is recorded and the routine of
`hal` acts on the address space. -/
def am_hal_mram_main_fill (hal : Hal) (key value dst words : Nat) (m : Machine) :
    Int × Machine :=
  let m1 := record (Event.mram_main_fill key value dst words) m
  let r := hal.main_fill key value dst words m1.mem
  (r.1, { m1 with mem := r.2 })

/-- The library routine `memcpy(dst, src, len)` into a caller buffer `buf`:
the first `len` bytes of the buffer are replaced by the bytes at addresses
`src`, `src + 1`, ..., `src + len - 1`. -/
def memcpy (buf : List Nat) (src len : Nat) (m : Machine) : List Nat × Machine :=
  (((List.range len).map fun i => m.mem (src + i)) ++ buf.drop len,
   record (Event.memcpy src len) m)

/-! ## The driver -/

/-- The pointer value `SOC_NV_FLASH_ADDR + offset` as a 32-bit address. -/
def flash_addr (cfg : Config) (offset : Int) : Nat :=
  (((cfg.SOC_NV_FLASH_ADDR : Int) + offset) % 4294967296).toNat

/-- The constant `flash_ambiq_parameters`. -/
def flash_ambiq_parameters (cfg : Config) : flash_parameters :=
  { write_block_size := cfg.FLASH_WRITE_BLK_SZ, erase_value := 0xff }

/-- The function `flash_ambiq_valid_range`.  The first comparison is between
the signed `offset` and the size constant, taken to be a plain (signed) integer
constant as the devicetree generator emits it; for `offset ≥ 0` the comparison
is the same if the constant is unsigned.  The sum `offset + len` is computed in
the unsigned 32-bit type before it is compared. -/
def flash_ambiq_valid_range (cfg : Config) (offset : Int) (len : Nat) (read : Bool) : Bool :=
  if offset > (cfg.SOC_NV_FLASH_SIZE : Int) ∨
      ((offset + (len : Int)) % 4294967296).toNat > cfg.SOC_NV_FLASH_SIZE then
    false
  else
    -- `if (!read) { /* TODO */ }` has an empty body
    if !read then true else true

/-- The function `flash_ambiq_read`: result code, caller buffer afterwards,
machine afterwards. -/
def flash_ambiq_read (cfg : Config) (offset : Int) (data : List Nat) (len : Nat)
    (m : Machine) : Int × List Nat × Machine :=
  if !flash_ambiq_valid_range cfg offset len true then
    (-EINVAL, data, m)
  else if len = 0 then
    (0, data, m)
  else
    let r := memcpy data (flash_addr cfg offset) len m
    (0, r.1, r.2)

/-- The function `flash_ambiq_write`. -/
def flash_ambiq_write (cfg : Config) (hal : Hal) (offset : Int) (data : List Nat) (len : Nat)
    (m : Machine) : Option (Int × Machine) :=
  if !flash_ambiq_valid_range cfg offset len false then
    some (-EINVAL, m)
  else if len = 0 then
    some (0, m)
  else
    match k_sem_take m with
    | none => none
    | some m1 =>
      let c := am_hal_interrupt_master_disable m1
      let r := am_hal_mram_main_program hal cfg.AM_HAL_MRAM_PROGRAM_KEY data
        (flash_addr cfg offset) (len / 4) c.2
      let m3 := am_hal_interrupt_master_set c.1 r.2
      let m4 := k_sem_give m3
      some (r.1, m4)

/-- The function `flash_ambiq_erase`. -/
def flash_ambiq_erase (cfg : Config) (hal : Hal) (offset : Int) (len : Nat)
    (m : Machine) : Option (Int × Machine) :=
  if !flash_ambiq_valid_range cfg offset len false then
    some (-EINVAL, m)
  else if len = 0 then
    some (0, m)
  else
    match k_sem_take m with
    | none => none
    | some m1 =>
      let r := am_hal_mram_main_fill hal cfg.AM_HAL_MRAM_PROGRAM_KEY 0xFFFFFFFF
        (flash_addr cfg offset) (len / 4) m1
      let m2 := k_sem_give r.2
      some (r.1, m2)

/-- The function `flash_ambiq_get_parameters`. -/
def flash_ambiq_get_parameters (cfg : Config) (_m : Machine) : flash_parameters :=
  flash_ambiq_parameters cfg

/-- The constant `pages_layout`. -/
def pages_layout (cfg : Config) : flash_pages_layout :=
  { pages_count := cfg.SOC_NV_FLASH_SIZE / cfg.FLASH_ERASE_BLK_SZ,
    pages_size := cfg.FLASH_ERASE_BLK_SZ }

/-- The function `flash_ambiq_pages_layout`: the layout array it points the
caller to and the value stored in `*layout_size`. -/
def flash_ambiq_pages_layout (cfg : Config) (_m : Machine) : List flash_pages_layout × Nat :=
  ([pages_layout cfg], 1)

/-- The function `flash_ambiq_init`. -/
def flash_ambiq_init (m : Machine) : Int × Machine :=
  (0, { m with data := { mutex := k_sem_init 1 1 } })

/-! ## Sequences of calls through the driver API table -/

/-- A call through `flash_ambiq_driver_api`. -/
inductive Call where
  | read (offset : Int) (data : List Nat) (len : Nat)
  | write (offset : Int) (data : List Nat) (len : Nat)
  | erase (offset : Int) (len : Nat)

/-- One call through the API table: result code and machine afterwards. -/
def call (cfg : Config) (hal : Hal) (c : Call) (m : Machine) : Option (Int × Machine) :=
  match c with
  | Call.read offset data len =>
    let r := flash_ambiq_read cfg offset data len m
    some (r.1, r.2.2)
  | Call.write offset data len => flash_ambiq_write cfg hal offset data len m
  | Call.erase offset len => flash_ambiq_erase cfg hal offset len m

/-- A sequence of calls, each started after the previous one has returned:
the result codes in order and the machine at the end. -/
def calls (cfg : Config) (hal : Hal) : List Call → Machine → Option (List Int × Machine)
  | [], m => some ([], m)
  | c :: cs, m =>
    match call cfg hal c m with
    | none => none
    | some (ret, m1) =>
      match calls cfg hal cs m1 with
      | none => none
      | some (rets, m2) => some (ret :: rets, m2)

/-! ## Reference behaviour of the vendor routines -/

/-- Modelled from the spec: the vendor program routine, when it succeeds,
stores `words` words from the source at the destination address.  The
address space after storing the first `4 * words` source bytes at `dst`. -/
def store_words (mem : Nat → Nat) (src : List Nat) (dst words : Nat) : Nat → Nat :=
  fun a => if dst ≤ a ∧ a < dst + 4 * words then src.getD (a - dst) 0 else mem a

/-- Modelled from the spec: the vendor fill routine, when it succeeds, stores
the 32-bit pattern it is given into `words` words at the destination.  Byte
`k` of a word holds bits `8k .. 8k+7` of the pattern (little endian). -/
def fill_words (mem : Nat → Nat) (value dst words : Nat) : Nat → Nat :=
  fun a => if dst ≤ a ∧ a < dst + 4 * words then (value / 256 ^ ((a - dst) % 4)) % 256 else mem a

/-- Modelled from the spec: vendor routines that always succeed (status 0)
and store as the spec describes. -/
def hal_success : Hal :=
  { main_program := fun _ src dst words mem => (0, store_words mem src dst words),
    main_fill := fun _ value dst words mem => (0, fill_words mem value dst words) }

/-- A configuration used in examples: the 262144-byte region at 0x1000000 of
the spec's scenarios, with 8192-byte erase blocks. -/
def cfg_example : Config :=
  { SOC_NV_FLASH_ADDR := 0x1000000, SOC_NV_FLASH_SIZE := 262144,
    FLASH_WRITE_BLK_SZ := 4, FLASH_ERASE_BLK_SZ := 8192,
    AM_HAL_MRAM_PROGRAM_KEY := 0x12344321 }

/-- A machine used in examples: erased address space, interrupts enabled,
semaphore as `flash_ambiq_init` leaves it, empty trace. -/
def machine_example : Machine :=
  { mem := fun _ => 0xff, primask := 0, data := { mutex := k_sem_init 1 1 }, trace := [] }

/-- Whether an effect is a call of a vendor program or fill routine. -/
def Event.is_vendor : Event → Bool
  | Event.mram_main_program _ _ _ _ => true
  | Event.mram_main_fill _ _ _ _ => true
  | _ => false

/-- Whether a trace entry respects the serialization discipline: the semaphore
is taken from the free state (count 1), and the vendor calls, the interrupt
operations and the release are issued while it is held (count 0). -/
def Entry.serialized (e : Entry) : Bool :=
  match e.ev with
  | Event.sem_take => e.sem_count == 1
  | Event.memcpy _ _ => true
  | _ => e.sem_count == 0

/-! ## Range validation -/

/-- A range that starts at a non-negative offset and ends inside the region is
accepted, for either value of the read flag. -/
theorem valid_range_of_fits (cfg : Config) (offset : Int) (len : Nat) (read : Bool)
    (h0 : 0 ≤ offset) (hfit : offset + (len : Int) ≤ (cfg.SOC_NV_FLASH_SIZE : Int)) :
    flash_ambiq_valid_range cfg offset len read = true := by
  simp only [flash_ambiq_valid_range]
  have h1 : ¬ (offset > (cfg.SOC_NV_FLASH_SIZE : Int)) := by omega
  have h2 : ¬ (((offset + (len : Int)) % 4294967296).toNat > cfg.SOC_NV_FLASH_SIZE) := by omega
  simp [h1, h2]

/-- As long as the sum `offset + len` stays below 2^32, the validator accepts
exactly the ranges with `offset ≤ size` and `offset + len ≤ size`. -/
theorem valid_range_iff_of_no_wrap (cfg : Config) (offset : Int) (len : Nat) (read : Bool)
    (h0 : 0 ≤ offset) (hsum : offset + (len : Int) < 4294967296) :
    flash_ambiq_valid_range cfg offset len read = true ↔
      offset ≤ (cfg.SOC_NV_FLASH_SIZE : Int) ∧
        offset + (len : Int) ≤ (cfg.SOC_NV_FLASH_SIZE : Int) := by
  simp only [flash_ambiq_valid_range]
  by_cases h1 : offset > (cfg.SOC_NV_FLASH_SIZE : Int)
  · simp [h1]
  · by_cases h2 : ((offset + (len : Int)) % 4294967296).toNat > cfg.SOC_NV_FLASH_SIZE
    · simp only [h1, h2, or_true, if_true]
      constructor
      · intro h; cases h
      · intro h; omega
    · have h3 : offset + (len : Int) ≤ (cfg.SOC_NV_FLASH_SIZE : Int) := by omega
      have h4 : offset ≤ (cfg.SOC_NV_FLASH_SIZE : Int) := by omega
      simp [h1, h2, h3, h4]

/-- A range whose start lies beyond the region, or whose end lies beyond the
region without the 32-bit sum wrapping around, is refused. -/
theorem valid_range_false_of_no_wrap (cfg : Config) (offset : Int) (len : Nat) (read : Bool)
    (h : offset > (cfg.SOC_NV_FLASH_SIZE : Int) ∨
      (offset + (len : Int) > (cfg.SOC_NV_FLASH_SIZE : Int) ∧
        offset + (len : Int) < 4294967296)) :
    flash_ambiq_valid_range cfg offset len read = false := by
  simp only [flash_ambiq_valid_range]
  by_cases h1 : offset > (cfg.SOC_NV_FLASH_SIZE : Int)
  · simp [h1]
  · have h2 : ((offset + (len : Int)) % 4294967296).toNat > cfg.SOC_NV_FLASH_SIZE := by omega
    simp [h2]

/-- C1, at the input offset = 16, len = 4294967280 on the 262144-byte region:
the integer sum 4294967296 exceeds the size, yet the validator returns true,
because the 32-bit sum wraps around to 0. -/
theorem valid_range_accepts_wrapped_sum :
    flash_ambiq_valid_range cfg_example 16 4294967280 true = true ∧
    flash_ambiq_valid_range cfg_example 16 4294967280 false = true ∧
    (16 : Int) ≤ (cfg_example.SOC_NV_FLASH_SIZE : Int) ∧
    ¬ ((16 : Int) + ((4294967280 : Nat) : Int) ≤ (cfg_example.SOC_NV_FLASH_SIZE : Int)) := by
  decide

/-! ## Rejected and empty requests -/

/-- A read request that passes validation with a non-zero length returns 0,
copies `len` bytes from address `flash_addr cfg offset` on into the caller
buffer and records the copy; nothing else changes. -/
theorem read_accepted (cfg : Config) (offset : Int) (data : List Nat) (len : Nat) (m : Machine)
    (hv : flash_ambiq_valid_range cfg offset len true = true) (hlen : len ≠ 0) :
    flash_ambiq_read cfg offset data len m =
      (0, ((List.range len).map fun i => m.mem (flash_addr cfg offset + i)) ++ data.drop len,
        record (Event.memcpy (flash_addr cfg offset) len) m) := by
  simp only [flash_ambiq_read, hv, memcpy]
  simp [hlen]

/-- C2, at the input offset = 16, len = 4294967280 on the 262144-byte region,
where offset + len exceeds the size: read returns 0 and issues a memcpy, write
returns the status of the program routine after taking the semaphore, masking
interrupts and calling the routine, and erase returns the status of the fill
routine after taking the semaphore and calling the routine. -/
theorem wrapped_range_not_rejected :
    (16 : Int) + ((4294967280 : Nat) : Int) > (cfg_example.SOC_NV_FLASH_SIZE : Int) ∧
    (flash_ambiq_read cfg_example 16 [] 4294967280 machine_example).1 = 0 ∧
    (flash_ambiq_read cfg_example 16 [] 4294967280 machine_example).2.2.trace =
      [⟨Event.memcpy 16777232 4294967280, 1, 0⟩] ∧
    (flash_ambiq_write cfg_example hal_success 16 [] 4294967280 machine_example).map
        (fun r => (r.1, r.2.trace)) =
      some (0, [⟨Event.sem_take, 1, 0⟩, ⟨Event.interrupt_master_disable 0, 0, 0⟩,
        ⟨Event.mram_main_program 305414945 [] 16777232 1073741820, 0, 1⟩,
        ⟨Event.interrupt_master_set 0, 0, 1⟩, ⟨Event.sem_give, 0, 0⟩]) ∧
    (flash_ambiq_erase cfg_example hal_success 16 4294967280 machine_example).map
        (fun r => (r.1, r.2.trace)) =
      some (0, [⟨Event.sem_take, 1, 0⟩,
        ⟨Event.mram_main_fill 305414945 4294967295 16777232 1073741820, 0, 0⟩,
        ⟨Event.sem_give, 0, 0⟩]) := by
  have hv : flash_ambiq_valid_range cfg_example 16 4294967280 true = true := by decide
  have ha : flash_addr cfg_example 16 = 16777232 := by decide
  have hr := read_accepted cfg_example 16 [] 4294967280 machine_example hv (by decide)
  refine ⟨by decide, ?_, ?_, by decide, by decide⟩
  · rw [hr]
  · rw [hr, ha]; rfl

/-- Outside the wrap-around case, an out-of-range request is refused by all
three operations with `-EINVAL`, and neither the machine (address space,
interrupt mask, semaphore, trace) nor the caller buffer changes. -/
theorem invalid_range_rejected_of_no_wrap (cfg : Config) (hal : Hal) (offset : Int)
    (data : List Nat) (len : Nat) (m : Machine)
    (h : offset > (cfg.SOC_NV_FLASH_SIZE : Int) ∨
      (offset + (len : Int) > (cfg.SOC_NV_FLASH_SIZE : Int) ∧
        offset + (len : Int) < 4294967296)) :
    flash_ambiq_read cfg offset data len m = (-EINVAL, data, m) ∧
    flash_ambiq_write cfg hal offset data len m = some (-EINVAL, m) ∧
    flash_ambiq_erase cfg hal offset len m = some (-EINVAL, m) := by
  have hr := valid_range_false_of_no_wrap cfg offset len true h
  have hw := valid_range_false_of_no_wrap cfg offset len false h
  simp [flash_ambiq_read, flash_ambiq_write, flash_ambiq_erase, hr, hw]

/-- The scenario `read(262140, 10, buf)` on the 262144-byte region: the result
is `-EINVAL` and nothing changes. -/
theorem read_262140_10_rejected (buf : List Nat) (m : Machine) :
    flash_ambiq_read cfg_example 262140 buf 10 m = (-EINVAL, buf, m) :=
  (invalid_range_rejected_of_no_wrap cfg_example hal_success 262140 buf 10 m
    (Or.inr (by decide))).1

/-- C3: for every offset with 0 ≤ offset ≤ size, a request of length 0 passes
validation and read, write and erase return 0 leaving the caller buffer and the
whole machine as they were: the semaphore, the interrupt mask, the address
space and the trace (no semaphore operation, no interrupt operation, no vendor
call, no copy) are unchanged.  This holds whether or not the semaphore is
available. -/
theorem zero_length_is_noop (cfg : Config) (hal : Hal) (offset : Int) (data : List Nat)
    (m : Machine) (h0 : 0 ≤ offset) (h1 : offset ≤ (cfg.SOC_NV_FLASH_SIZE : Int)) :
    flash_ambiq_valid_range cfg offset 0 true = true ∧
    flash_ambiq_valid_range cfg offset 0 false = true ∧
    flash_ambiq_read cfg offset data 0 m = (0, data, m) ∧
    flash_ambiq_write cfg hal offset data 0 m = some (0, m) ∧
    flash_ambiq_erase cfg hal offset 0 m = some (0, m) := by
  have hr := valid_range_of_fits cfg offset 0 true h0 (by simpa using h1)
  have hw := valid_range_of_fits cfg offset 0 false h0 (by simpa using h1)
  simp [flash_ambiq_read, flash_ambiq_write, flash_ambiq_erase, hr, hw]

/-- C3 at offset 4096 of the example region, with the semaphore held by
someone else (count 0): the three operations still return 0 at once. -/
theorem zero_length_is_noop_witness :
    (0 : Int) ≤ 4096 ∧ (4096 : Int) ≤ (cfg_example.SOC_NV_FLASH_SIZE : Int) ∧
    flash_ambiq_read cfg_example 4096 [1, 2] 0
        { machine_example with data := { mutex := ⟨0, 1⟩ } } =
      (0, [1, 2], { machine_example with data := { mutex := ⟨0, 1⟩ } }) ∧
    flash_ambiq_write cfg_example hal_success 4096 [1, 2] 0
        { machine_example with data := { mutex := ⟨0, 1⟩ } } =
      some (0, { machine_example with data := { mutex := ⟨0, 1⟩ } }) ∧
    flash_ambiq_erase cfg_example hal_success 4096 0
        { machine_example with data := { mutex := ⟨0, 1⟩ } } =
      some (0, { machine_example with data := { mutex := ⟨0, 1⟩ } }) :=
  ⟨by decide, by decide,
    (zero_length_is_noop cfg_example hal_success 4096 [1, 2]
      { machine_example with data := { mutex := ⟨0, 1⟩ } } (by decide) (by decide)).2.2⟩

/-! ## Page layout -/

/-- C9: for every configuration with a non-zero erase block size and every
machine state, `flash_ambiq_pages_layout` reports one layout entry
(`*layout_size = 1`) whose `pages_size` is the erase block size and whose
`pages_count` is the region size divided by it (integer division); for a
region of 262144 bytes with 8192-byte erase blocks the entry is
`pages_count = 32`, `pages_size = 8192`. -/
theorem pages_layout_single_entry (cfg : Config) (m : Machine)
    (hblk : 0 < cfg.FLASH_ERASE_BLK_SZ) :
    (∃ entry, flash_ambiq_pages_layout cfg m = ([entry], 1) ∧
      entry.pages_size = cfg.FLASH_ERASE_BLK_SZ ∧
      entry.pages_count = cfg.SOC_NV_FLASH_SIZE / cfg.FLASH_ERASE_BLK_SZ ∧
      entry.pages_count * entry.pages_size ≤ cfg.SOC_NV_FLASH_SIZE ∧
      cfg.SOC_NV_FLASH_SIZE < (entry.pages_count + 1) * entry.pages_size) ∧
    (cfg.SOC_NV_FLASH_SIZE = 262144 → cfg.FLASH_ERASE_BLK_SZ = 8192 →
      flash_ambiq_pages_layout cfg m = ([⟨32, 8192⟩], 1)) := by
  refine ⟨⟨pages_layout cfg, rfl, rfl, rfl, ?_, ?_⟩, ?_⟩
  · exact Nat.div_mul_le_self _ _
  · simp only [pages_layout]
    have h := Nat.lt_mul_div_succ cfg.SOC_NV_FLASH_SIZE hblk
    rw [Nat.mul_comm]
    exact h
  · intro hs hb
    simp [flash_ambiq_pages_layout, pages_layout, hs, hb]

/-- C9 on the example configuration (262144 bytes, 8192-byte erase blocks). -/
theorem pages_layout_single_entry_witness :
    0 < cfg_example.FLASH_ERASE_BLK_SZ ∧
    flash_ambiq_pages_layout cfg_example machine_example = ([⟨32, 8192⟩], 1) :=
  ⟨by decide, (pages_layout_single_entry cfg_example machine_example (by decide)).2 rfl rfl⟩

/-! ## Write and erase: effects and result -/

/-- The pointer `SOC_NV_FLASH_ADDR + offset` is the plain sum when the offset
is non-negative and the sum fits in 32 bits. -/
theorem flash_addr_eq (cfg : Config) (offset : Int) (h0 : 0 ≤ offset)
    (hfit : (cfg.SOC_NV_FLASH_ADDR : Int) + offset < 4294967296) :
    (flash_addr cfg offset : Int) = (cfg.SOC_NV_FLASH_ADDR : Int) + offset := by
  simp only [flash_addr]
  omega

/-- A write request that passes validation with a non-zero length, issued
while the semaphore is available: the result and the machine afterwards. -/
theorem write_accepted (cfg : Config) (hal : Hal) (offset : Int) (data : List Nat) (len : Nat)
    (m : Machine) (hv : flash_ambiq_valid_range cfg offset len false = true) (hlen : len ≠ 0)
    (hfree : 0 < m.data.mutex.count) :
    flash_ambiq_write cfg hal offset data len m =
      some ((hal.main_program cfg.AM_HAL_MRAM_PROGRAM_KEY data (flash_addr cfg offset)
          (len / 4) m.mem).1,
        { mem := (hal.main_program cfg.AM_HAL_MRAM_PROGRAM_KEY data (flash_addr cfg offset)
            (len / 4) m.mem).2,
          primask := m.primask,
          data := { mutex :=
            { count := if m.data.mutex.count - 1 < m.data.mutex.limit
                then m.data.mutex.count - 1 + 1 else m.data.mutex.count - 1,
              limit := m.data.mutex.limit } },
          trace := m.trace ++
            [⟨Event.sem_take, m.data.mutex.count, m.primask⟩,
             ⟨Event.interrupt_master_disable m.primask, m.data.mutex.count - 1, m.primask⟩,
             ⟨Event.mram_main_program cfg.AM_HAL_MRAM_PROGRAM_KEY data (flash_addr cfg offset)
                (len / 4), m.data.mutex.count - 1, 1⟩,
             ⟨Event.interrupt_master_set m.primask, m.data.mutex.count - 1, 1⟩,
             ⟨Event.sem_give, m.data.mutex.count - 1, m.primask⟩] }) := by
  simp only [flash_ambiq_write, hv, k_sem_take, hfree, am_hal_interrupt_master_disable,
    am_hal_mram_main_program, am_hal_interrupt_master_set, k_sem_give, record]
  by_cases hc : m.data.mutex.count - 1 < m.data.mutex.limit <;> simp [hlen, hc]

/-- An erase request that passes validation with a non-zero length, issued
while the semaphore is available: the result and the machine afterwards. -/
theorem erase_accepted (cfg : Config) (hal : Hal) (offset : Int) (len : Nat)
    (m : Machine) (hv : flash_ambiq_valid_range cfg offset len false = true) (hlen : len ≠ 0)
    (hfree : 0 < m.data.mutex.count) :
    flash_ambiq_erase cfg hal offset len m =
      some ((hal.main_fill cfg.AM_HAL_MRAM_PROGRAM_KEY 0xFFFFFFFF (flash_addr cfg offset)
          (len / 4) m.mem).1,
        { mem := (hal.main_fill cfg.AM_HAL_MRAM_PROGRAM_KEY 0xFFFFFFFF (flash_addr cfg offset)
            (len / 4) m.mem).2,
          primask := m.primask,
          data := { mutex :=
            { count := if m.data.mutex.count - 1 < m.data.mutex.limit
                then m.data.mutex.count - 1 + 1 else m.data.mutex.count - 1,
              limit := m.data.mutex.limit } },
          trace := m.trace ++
            [⟨Event.sem_take, m.data.mutex.count, m.primask⟩,
             ⟨Event.mram_main_fill cfg.AM_HAL_MRAM_PROGRAM_KEY 0xFFFFFFFF (flash_addr cfg offset)
                (len / 4), m.data.mutex.count - 1, m.primask⟩,
             ⟨Event.sem_give, m.data.mutex.count - 1, m.primask⟩] }) := by
  simp only [flash_ambiq_erase, hv, k_sem_take, hfree, am_hal_mram_main_fill, k_sem_give,
    record]
  by_cases hc : m.data.mutex.count - 1 < m.data.mutex.limit <;> simp [hlen, hc]

/-- A request that passes validation has `offset ≤ size`. -/
theorem offset_le_of_valid_range (cfg : Config) (offset : Int) (len : Nat) (read : Bool)
    (hv : flash_ambiq_valid_range cfg offset len read = true) :
    offset ≤ (cfg.SOC_NV_FLASH_SIZE : Int) := by
  by_contra h
  have h1 : offset > (cfg.SOC_NV_FLASH_SIZE : Int) := by omega
  simp [flash_ambiq_valid_range, h1] at hv

/-- C7: a write request that passes validation with a non-zero length, issued
while the semaphore is available, returns the status code of the vendor
program routine, and its effects are, in this order and nothing else: take the
semaphore, disable interrupts (capturing the prior mask), call the program
routine once with the key, the source buffer, the destination pointer
`SOC_NV_FLASH_ADDR + offset` and the word count `len / 4`, set the interrupt
mask to the captured value, give the semaphore.  The address space afterwards
is the one the routine produced.  For a non-negative offset and a region below
2^32 the destination pointer is the plain sum of base address and offset. -/
theorem write_effect_sequence (cfg : Config) (hal : Hal) (offset : Int) (data : List Nat)
    (len : Nat) (m : Machine)
    (hv : flash_ambiq_valid_range cfg offset len false = true) (hlen : len ≠ 0)
    (hfree : 0 < m.data.mutex.count) :
    ∃ m1, flash_ambiq_write cfg hal offset data len m =
        some ((hal.main_program cfg.AM_HAL_MRAM_PROGRAM_KEY data (flash_addr cfg offset)
          (len / 4) m.mem).1, m1) ∧
      m1.trace = m.trace ++
        [⟨Event.sem_take, m.data.mutex.count, m.primask⟩,
         ⟨Event.interrupt_master_disable m.primask, m.data.mutex.count - 1, m.primask⟩,
         ⟨Event.mram_main_program cfg.AM_HAL_MRAM_PROGRAM_KEY data (flash_addr cfg offset)
            (len / 4), m.data.mutex.count - 1, 1⟩,
         ⟨Event.interrupt_master_set m.primask, m.data.mutex.count - 1, 1⟩,
         ⟨Event.sem_give, m.data.mutex.count - 1, m.primask⟩] ∧
      m1.mem = (hal.main_program cfg.AM_HAL_MRAM_PROGRAM_KEY data (flash_addr cfg offset)
          (len / 4) m.mem).2 ∧
      (0 ≤ offset →
        (cfg.SOC_NV_FLASH_ADDR : Int) + (cfg.SOC_NV_FLASH_SIZE : Int) < 4294967296 →
        (flash_addr cfg offset : Int) = (cfg.SOC_NV_FLASH_ADDR : Int) + offset) := by
  refine ⟨_, write_accepted cfg hal offset data len m hv hlen hfree, rfl, rfl, ?_⟩
  intro h0 hfit
  have hle := offset_le_of_valid_range cfg offset len false hv
  exact flash_addr_eq cfg offset h0 (by omega)

/-- C7 on the example region: writing the four bytes 1, 2, 3, 4 at offset 0. -/
theorem write_effect_sequence_witness :
    flash_ambiq_valid_range cfg_example 0 4 false = true ∧ 4 ≠ 0 ∧
    0 < machine_example.data.mutex.count ∧
    ∃ m1, flash_ambiq_write cfg_example hal_success 0 [1, 2, 3, 4] 4 machine_example =
        some (0, m1) ∧
      m1.trace =
        [⟨Event.sem_take, 1, 0⟩,
         ⟨Event.interrupt_master_disable 0, 0, 0⟩,
         ⟨Event.mram_main_program 0x12344321 [1, 2, 3, 4] 0x1000000 1, 0, 1⟩,
         ⟨Event.interrupt_master_set 0, 0, 1⟩,
         ⟨Event.sem_give, 0, 0⟩] := by
  refine ⟨by decide, by decide, by decide, ?_⟩
  obtain ⟨m1, h1, h2, _⟩ := write_effect_sequence cfg_example hal_success 0 [1, 2, 3, 4] 4
    machine_example (by decide) (by decide) (by decide)
  exact ⟨m1, h1, h2⟩

/-- C10: an erase request that passes validation with a non-zero length, issued
while the semaphore is available, returns the status code of the vendor fill
routine, and its effects are, in this order and nothing else: take the
semaphore, call the fill routine once with the key, the pattern 0xFFFFFFFF, the
destination pointer `SOC_NV_FLASH_ADDR + offset` and the word count `len / 4`,
give the semaphore.  No interrupt operation is issued and the interrupt mask
seen by every effect, and left at the end, is the one found on entry. -/
theorem erase_effect_sequence (cfg : Config) (hal : Hal) (offset : Int) (len : Nat)
    (m : Machine)
    (hv : flash_ambiq_valid_range cfg offset len false = true) (hlen : len ≠ 0)
    (hfree : 0 < m.data.mutex.count) :
    ∃ m1, flash_ambiq_erase cfg hal offset len m =
        some ((hal.main_fill cfg.AM_HAL_MRAM_PROGRAM_KEY 0xFFFFFFFF (flash_addr cfg offset)
          (len / 4) m.mem).1, m1) ∧
      m1.trace = m.trace ++
        [⟨Event.sem_take, m.data.mutex.count, m.primask⟩,
         ⟨Event.mram_main_fill cfg.AM_HAL_MRAM_PROGRAM_KEY 0xFFFFFFFF (flash_addr cfg offset)
            (len / 4), m.data.mutex.count - 1, m.primask⟩,
         ⟨Event.sem_give, m.data.mutex.count - 1, m.primask⟩] ∧
      m1.primask = m.primask ∧
      m1.mem = (hal.main_fill cfg.AM_HAL_MRAM_PROGRAM_KEY 0xFFFFFFFF (flash_addr cfg offset)
          (len / 4) m.mem).2 ∧
      (0 ≤ offset →
        (cfg.SOC_NV_FLASH_ADDR : Int) + (cfg.SOC_NV_FLASH_SIZE : Int) < 4294967296 →
        (flash_addr cfg offset : Int) = (cfg.SOC_NV_FLASH_ADDR : Int) + offset) := by
  refine ⟨_, erase_accepted cfg hal offset len m hv hlen hfree, rfl, rfl, rfl, ?_⟩
  intro h0 hfit
  have hle := offset_le_of_valid_range cfg offset len false hv
  exact flash_addr_eq cfg offset h0 (by omega)

/-- C10 on the example region: erasing the first 8192 bytes, with interrupts
masked on entry (mask 1). -/
theorem erase_effect_sequence_witness :
    flash_ambiq_valid_range cfg_example 0 8192 false = true ∧ 8192 ≠ 0 ∧
    0 < ({ machine_example with primask := 1 } : Machine).data.mutex.count ∧
    ∃ m1, flash_ambiq_erase cfg_example hal_success 0 8192
        { machine_example with primask := 1 } = some (0, m1) ∧
      m1.trace =
        [⟨Event.sem_take, 1, 1⟩,
         ⟨Event.mram_main_fill 0x12344321 0xFFFFFFFF 0x1000000 2048, 0, 1⟩,
         ⟨Event.sem_give, 0, 1⟩] ∧
      m1.primask = 1 := by
  refine ⟨by decide, by decide, by decide, ?_⟩
  obtain ⟨m1, h1, h2, h3, _⟩ := erase_effect_sequence cfg_example hal_success 0 8192
    { machine_example with primask := 1 } (by decide) (by decide) (by decide)
  exact ⟨m1, h1, h2, h3⟩

/-! ## Interrupt state -/

/-- C5: a write call issued while the semaphore is available returns, and
whenever a write call returns (validation failed, length 0, or the vendor
routine ran and reported any status) the interrupt mask afterwards is the
interrupt mask found on entry. -/
theorem write_restores_interrupt_state (cfg : Config) (hal : Hal) (offset : Int)
    (data : List Nat) (len : Nat) (m : Machine) :
    (0 < m.data.mutex.count → ∃ ret m1, flash_ambiq_write cfg hal offset data len m =
      some (ret, m1)) ∧
    (∀ ret m1, flash_ambiq_write cfg hal offset data len m = some (ret, m1) →
      m1.primask = m.primask) := by
  by_cases hv : flash_ambiq_valid_range cfg offset len false = true
  · by_cases hlen : len = 0
    · subst hlen
      simp only [flash_ambiq_write, hv, Bool.not_true, Bool.false_eq_true, if_false, if_true]
      refine ⟨fun _ => ⟨_, _, rfl⟩, ?_⟩
      intro ret m1 h
      simp only [Option.some.injEq, Prod.mk.injEq] at h
      rw [← h.2]
    · by_cases hfree : 0 < m.data.mutex.count
      · rw [write_accepted cfg hal offset data len m hv hlen hfree]
        refine ⟨fun _ => ⟨_, _, rfl⟩, ?_⟩
        intro ret m1 h
        simp only [Option.some.injEq, Prod.mk.injEq] at h
        rw [← h.2]
      · simp [flash_ambiq_write, hv, hlen, k_sem_take, hfree]
  · simp only [Bool.not_eq_true] at hv
    simp [flash_ambiq_write, hv]

/-- C5 on the example region, with interrupts masked on entry (mask 1) and a
vendor program routine that fails with status 7: write returns 7 and the mask
is 1 afterwards. -/
theorem write_restores_interrupt_state_witness :
    ∃ m1, flash_ambiq_write cfg_example
        { hal_success with main_program := fun _ _ _ _ mem => (7, mem) } 0 [1, 2, 3, 4] 4
        { machine_example with primask := 1 } = some (7, m1) ∧ m1.primask = 1 := by
  obtain ⟨ret, m1, h⟩ := (write_restores_interrupt_state cfg_example
    { hal_success with main_program := fun _ _ _ _ mem => (7, mem) } 0 [1, 2, 3, 4] 4
    { machine_example with primask := 1 }).1 (by decide)
  have hp := (write_restores_interrupt_state cfg_example
    { hal_success with main_program := fun _ _ _ _ mem => (7, mem) } 0 [1, 2, 3, 4] 4
    { machine_example with primask := 1 }).2 ret m1 h
  have hret : ret = 7 := by
    have h2 := write_accepted cfg_example
      { hal_success with main_program := fun _ _ _ _ mem => (7, mem) } 0 [1, 2, 3, 4] 4
      { machine_example with primask := 1 } (by decide) (by decide) (by decide)
    rw [h2] at h
    simp only [Option.some.injEq, Prod.mk.injEq] at h
    exact h.1.symm
  subst hret
  exact ⟨m1, h, hp⟩

/-! ## Serializer state across calls -/

/-- One call through the API table, started with the semaphore free (count 1,
limit 1), returns and leaves the semaphore free; the effects it adds to the
trace respect the serialization discipline. -/
theorem call_keeps_idle (cfg : Config) (hal : Hal) (c : Call) (m : Machine)
    (hidle : m.data.mutex = ⟨1, 1⟩) :
    ∃ ret m1, call cfg hal c m = some (ret, m1) ∧ m1.data.mutex = ⟨1, 1⟩ ∧
      ∃ added, m1.trace = m.trace ++ added ∧ ∀ e ∈ added, e.serialized = true := by
  have hcount : m.data.mutex.count = 1 := by rw [hidle]
  have hlimit : m.data.mutex.limit = 1 := by rw [hidle]
  cases c with
  | read offset data len =>
    by_cases hv : flash_ambiq_valid_range cfg offset len true = true
    · by_cases hlen : len = 0
      · subst hlen
        refine ⟨0, m, ?_, hidle, [], by simp, by simp⟩
        simp [call, flash_ambiq_read, hv]
      · refine ⟨0, record (Event.memcpy (flash_addr cfg offset) len) m, ?_, hidle,
          [⟨Event.memcpy (flash_addr cfg offset) len, m.data.mutex.count, m.primask⟩], rfl, ?_⟩
        · simp [call, read_accepted cfg offset data len m hv hlen]
        · intro e he
          simp only [List.mem_singleton] at he
          subst he
          rfl
    · simp only [Bool.not_eq_true] at hv
      refine ⟨-EINVAL, m, ?_, hidle, [], by simp, by simp⟩
      simp [call, flash_ambiq_read, hv]
  | write offset data len =>
    by_cases hv : flash_ambiq_valid_range cfg offset len false = true
    · by_cases hlen : len = 0
      · subst hlen
        refine ⟨0, m, ?_, hidle, [], by simp, by simp⟩
        simp [call, flash_ambiq_write, hv]
      · refine ⟨_, _, write_accepted cfg hal offset data len m hv hlen (by omega), ?_,
          _, rfl, ?_⟩
        · simp [hcount, hlimit]
        · intro e he
          simp only [hcount, List.mem_cons, List.mem_singleton, List.not_mem_nil, or_false] at he
          rcases he with h | h | h | h | h <;> subst h <;> rfl
    · simp only [Bool.not_eq_true] at hv
      refine ⟨-EINVAL, m, ?_, hidle, [], by simp, by simp⟩
      simp [call, flash_ambiq_write, hv]
  | erase offset len =>
    by_cases hv : flash_ambiq_valid_range cfg offset len false = true
    · by_cases hlen : len = 0
      · subst hlen
        refine ⟨0, m, ?_, hidle, [], by simp, by simp⟩
        simp [call, flash_ambiq_erase, hv]
      · refine ⟨_, _, erase_accepted cfg hal offset len m hv hlen (by omega), ?_,
          _, rfl, ?_⟩
        · simp [hcount, hlimit]
        · intro e he
          simp only [hcount, List.mem_cons, List.mem_singleton, List.not_mem_nil, or_false] at he
          rcases he with h | h | h <;> subst h <;> rfl
    · simp only [Bool.not_eq_true] at hv
      refine ⟨-EINVAL, m, ?_, hidle, [], by simp, by simp⟩
      simp [call, flash_ambiq_erase, hv]

/-- A sequence of calls started with the semaphore free runs to completion,
returns one result code per call and leaves the semaphore free; the effects it
adds to the trace respect the serialization discipline. -/
theorem calls_keep_idle (cfg : Config) (hal : Hal) (cs : List Call) :
    ∀ m : Machine, m.data.mutex = ⟨1, 1⟩ →
      ∃ rets m1, calls cfg hal cs m = some (rets, m1) ∧ rets.length = cs.length ∧
        m1.data.mutex = ⟨1, 1⟩ ∧
        ∃ added, m1.trace = m.trace ++ added ∧ ∀ e ∈ added, e.serialized = true := by
  induction cs with
  | nil =>
    intro m hidle
    exact ⟨[], m, rfl, rfl, hidle, [], by simp, by simp⟩
  | cons c cs ih =>
    intro m hidle
    obtain ⟨ret, m1, hcall, hidle1, added1, htrace1, hser1⟩ := call_keeps_idle cfg hal c m hidle
    obtain ⟨rets, m2, hcalls, hlen, hidle2, added2, htrace2, hser2⟩ := ih m1 hidle1
    refine ⟨ret :: rets, m2, ?_, by simp [hlen], hidle2, added1 ++ added2, ?_, ?_⟩
    · simp [calls, hcall, hcalls]
    · rw [htrace2, htrace1, List.append_assoc]
    · intro e he
      rcases List.mem_append.mp he with h | h
      · exact hser1 e h
      · exact hser2 e h

/-- C6: `flash_ambiq_init` returns 0 and leaves the semaphore at count 1 with
limit 1 (Idle).  From that state every finite sequence of read, write and erase
calls, with arbitrary arguments and arbitrary vendor routines (hence arbitrary
status codes), runs to completion and ends with the semaphore again at count 1,
limit 1.  In the trace the sequence adds, every semaphore take was issued at
count 1, and every vendor call, interrupt operation and semaphore give at
count 0: the semaphore is held from the take to the give of the same call,
whatever the vendor routine returns. -/
theorem idle_after_any_calls (cfg : Config) (hal : Hal) (cs : List Call) (m0 : Machine) :
    (flash_ambiq_init m0).1 = 0 ∧
    (flash_ambiq_init m0).2.data.mutex = ⟨1, 1⟩ ∧
    ∃ rets m1, calls cfg hal cs (flash_ambiq_init m0).2 = some (rets, m1) ∧
      rets.length = cs.length ∧
      m1.data.mutex = ⟨1, 1⟩ ∧
      ∃ added, m1.trace = m0.trace ++ added ∧
        (∀ e ∈ added, e.ev = Event.sem_take → e.sem_count = 1) ∧
        (∀ e ∈ added, e.ev.is_vendor = true → e.sem_count = 0) ∧
        (∀ e ∈ added, e.ev = Event.sem_give → e.sem_count = 0) := by
  refine ⟨rfl, rfl, ?_⟩
  obtain ⟨rets, m1, hcalls, hlen, hidle, added, htrace, hser⟩ :=
    calls_keep_idle cfg hal cs (flash_ambiq_init m0).2 rfl
  refine ⟨rets, m1, hcalls, hlen, hidle, added, htrace, ?_, ?_, ?_⟩
  · intro e he hev
    have h := hser e he
    simp only [Entry.serialized, hev] at h
    simpa using h
  · intro e he hev
    have h := hser e he
    cases hcase : e.ev <;> simp only [Entry.serialized, Event.is_vendor, hcase] at h hev <;>
      first | simpa using h | cases hev
  · intro e he hev
    have h := hser e he
    simp only [Entry.serialized, hev] at h
    simpa using h

/-! ## Write then read; erase of an erased range -/

/-- Reading back `data.length` bytes at `dst` after the bytes of `data`, a
whole number of words, were stored there yields `data`. -/
theorem read_back_stored (mem : Nat → Nat) (data : List Nat) (dst : Nat)
    (h4 : data.length % 4 = 0) :
    ((List.range data.length).map fun i =>
      store_words mem data dst (data.length / 4) (dst + i)) = data := by
  apply List.ext_getElem
  · simp
  · intro i h1 h2
    have hi : i < data.length := h2
    have hin : i < 4 * (data.length / 4) := by omega
    simp [store_words, hin, List.getElem?_eq_getElem hi]

/-- Each byte of the word 0xFFFFFFFF is 0xff. -/
theorem byte_of_all_ones (k : Nat) : (0xFFFFFFFF / 256 ^ (k % 4)) % 256 = 0xff := by
  have hk : k % 4 < 4 := Nat.mod_lt _ (by decide)
  interval_cases k % 4 <;> decide

/-- C4: let `data` be a byte sequence whose length is a non-zero multiple of 4,
at a non-negative offset with `offset + data.length ≤ size`, on a machine whose
semaphore is available and where the target range is erased (every byte 0xff).
If the vendor program routine, given the erased target, succeeds on this call,
returning 0 and storing `data.length / 4` words of the source at the
destination, then write returns 0
and a following read of `data.length` bytes at the same offset returns 0 and
leaves in the caller buffer the bytes of `data` (followed by whatever the
buffer held beyond them). -/
theorem write_then_read_roundtrip (cfg : Config) (hal : Hal) (offset : Int)
    (data buf : List Nat) (m : Machine)
    (h0 : 0 ≤ offset) (h4 : data.length % 4 = 0) (hne : data.length ≠ 0)
    (hfit : offset + (data.length : Int) ≤ (cfg.SOC_NV_FLASH_SIZE : Int))
    (hfree : 0 < m.data.mutex.count)
    (herased : ∀ i, i < data.length → m.mem (flash_addr cfg offset + i) = 0xff)
    (hprog : (∀ i, i < data.length → m.mem (flash_addr cfg offset + i) = 0xff) →
      hal.main_program cfg.AM_HAL_MRAM_PROGRAM_KEY data (flash_addr cfg offset)
          (data.length / 4) m.mem =
        (0, store_words m.mem data (flash_addr cfg offset) (data.length / 4))) :
    ∃ m1, flash_ambiq_write cfg hal offset data data.length m = some (0, m1) ∧
      ∃ m2, flash_ambiq_read cfg offset buf data.length m1 =
        (0, data ++ buf.drop data.length, m2) := by
  have hw := write_accepted cfg hal offset data data.length m
    (valid_range_of_fits cfg offset data.length false h0 hfit) hne hfree
  rw [hprog herased] at hw
  refine ⟨_, hw, ?_⟩
  rw [read_accepted cfg offset buf data.length _
    (valid_range_of_fits cfg offset data.length true h0 hfit) hne]
  simp only [read_back_stored _ data (flash_addr cfg offset) h4]
  exact ⟨_, rfl⟩

/-- C4 on the example region: the eight bytes 1..8 written at offset 4096 of
an erased address space are read back. -/
theorem write_then_read_roundtrip_witness :
    ∃ m1, flash_ambiq_write cfg_example hal_success 4096 [1, 2, 3, 4, 5, 6, 7, 8] 8
        machine_example = some (0, m1) ∧
      ∃ m2, flash_ambiq_read cfg_example 4096 [0, 0, 0, 0, 0, 0, 0, 0, 9] 8 m1 =
        (0, [1, 2, 3, 4, 5, 6, 7, 8, 9], m2) :=
  write_then_read_roundtrip cfg_example hal_success 4096 [1, 2, 3, 4, 5, 6, 7, 8]
    [0, 0, 0, 0, 0, 0, 0, 0, 9] machine_example (by decide) (by decide) (by decide)
    (by decide) (by decide) (fun _ _ => rfl) (fun _ => rfl)

/-- C8: let (offset, len) pass validation, on a machine whose semaphore is
available and where every byte of the range `[offset, offset + len)` of the
region equals the erase value reported by `flash_ambiq_get_parameters`, which
is 0xff.  If the vendor fill routine succeeds on this call, returning 0 and
storing the pattern into `len / 4` words at the destination, then erase returns
0, every byte of the address space (hence of the flash region) is unchanged,
and every byte of the range still equals the erase value. -/
theorem erase_of_erased_range (cfg : Config) (hal : Hal) (offset : Int) (len : Nat)
    (m : Machine)
    (hv : flash_ambiq_valid_range cfg offset len false = true)
    (hfree : 0 < m.data.mutex.count)
    (herased : ∀ i, i < len →
      m.mem (flash_addr cfg offset + i) = (flash_ambiq_get_parameters cfg m).erase_value)
    (hfill : hal.main_fill cfg.AM_HAL_MRAM_PROGRAM_KEY 0xFFFFFFFF (flash_addr cfg offset)
        (len / 4) m.mem =
      (0, fill_words m.mem 0xFFFFFFFF (flash_addr cfg offset) (len / 4))) :
    (flash_ambiq_get_parameters cfg m).erase_value = 0xff ∧
    ∃ m1, flash_ambiq_erase cfg hal offset len m = some (0, m1) ∧
      (∀ a, m1.mem a = m.mem a) ∧
      (∀ i, i < len →
        m1.mem (flash_addr cfg offset + i) = (flash_ambiq_get_parameters cfg m1).erase_value) := by
  refine ⟨rfl, ?_⟩
  by_cases hlen : len = 0
  · subst hlen
    refine ⟨m, ?_, fun _ => rfl, herased⟩
    simp [flash_ambiq_erase, hv]
  · have he := erase_accepted cfg hal offset len m hv hlen hfree
    rw [hfill] at he
    have hmem : ∀ a, fill_words m.mem 0xFFFFFFFF (flash_addr cfg offset) (len / 4) a = m.mem a := by
      intro a
      by_cases hin : flash_addr cfg offset ≤ a ∧ a < flash_addr cfg offset + 4 * (len / 4)
      · have hi : a - flash_addr cfg offset < len := by omega
        have hold := herased (a - flash_addr cfg offset) hi
        have ha : flash_addr cfg offset + (a - flash_addr cfg offset) = a := by omega
        rw [ha] at hold
        simp only [fill_words, hin, and_self, if_true]
        rw [hold, byte_of_all_ones]
        rfl
      · simp [fill_words, hin]
    refine ⟨_, he, hmem, ?_⟩
    intro i hi
    show fill_words m.mem 0xFFFFFFFF (flash_addr cfg offset) (len / 4) _ = _
    rw [hmem]
    exact herased i hi

/-- C8 on the example region: erasing the erased first 8192 bytes. -/
theorem erase_of_erased_range_witness :
    flash_ambiq_valid_range cfg_example 0 8192 false = true ∧
    0 < machine_example.data.mutex.count ∧
    ∃ m1, flash_ambiq_erase cfg_example hal_success 0 8192 machine_example = some (0, m1) ∧
      (∀ a, m1.mem a = machine_example.mem a) ∧
      (∀ i, i < 8192 → m1.mem (flash_addr cfg_example 0 + i) = 0xff) :=
  ⟨by decide, by decide,
    (erase_of_erased_range cfg_example hal_success 0 8192 machine_example (by decide)
      (by decide) (fun _ _ => rfl) rfl).2⟩

end FlashAmbiq
